import Mathlib

/-!
Verification of the suiup specifier-resolution grammar and command router
(`src/commands/mod.rs`).

Rust strings are modelled as `List Char`; the Rust `str` methods the code
uses (`contains`, `split`, `splitn`, `starts_with`, lowercasing) are given
faithful executable counterparts below, and the three program functions
(`BinaryName::from_str`, `parse_version_spec`,
`parse_component_with_version`) together with the router `Command::exec`
are translated clause by clause.
-/

namespace Suiup

/-- A Rust string, modelled as its list of characters. -/
abbrev Str := List Char

/-- Models Rust `s.starts_with(pat)`: `pat` is a prefix of `s`. -/
def starts_with : Str → Str → Bool
  | _, [] => true
  | [], _ :: _ => false
  | c :: s, p :: ps => c == p && starts_with s ps

/-- Models Rust `s.contains(pat)`: some suffix of `s` starts with `pat`. -/
def contains : Str → Str → Bool
  | [], pat => starts_with [] pat
  | c :: rest, pat => starts_with (c :: rest) pat || contains rest pat

/-- Worker for `split`: splits on every non-overlapping occurrence of the
nonempty pattern `q :: qs`, scanning left to right. -/
def splitOnNE (q : Char) (qs : Str) : Str → List Str
  | [] => [[]]
  | c :: rest =>
    if starts_with (c :: rest) (q :: qs) then
      [] :: splitOnNE q qs (List.drop qs.length rest)
    else
      match splitOnNE q qs rest with
      | [] => [[c]]
      | p :: ps => (c :: p) :: ps
termination_by s => s.length
decreasing_by
  · simp only [List.length_cons]
    have := List.length_drop qs.length rest
    omega
  · simp

/-- Models Rust `s.split(pat)` for a string pattern. The program only ever
splits on the nonempty patterns selected by `split_char` (`"@"`, `"=="`,
`"="`, `" "`) and never on an empty pattern, so that degenerate case is
mapped to `[s]`. -/
def split (s : Str) : Str → List Str
  | [] => [s]
  | q :: qs => splitOnNE q qs s

/-- Models Rust `s.splitn(2, sep)` for a `char` separator: at most two
parts, splitting at the first occurrence of `sep`. -/
def splitn2 (sep : Char) : Str → List Str
  | [] => [[]]
  | c :: rest =>
    if c = sep then [[], rest]
    else
      match splitn2 sep rest with
      | [] => [[c]]
      | p :: ps => (c :: p) :: ps

/-- ASCII lowercasing of one character, as used by clap's case-insensitive
value matching (`eq_ignore_ascii_case`). -/
def ascii_lower (c : Char) : Char :=
  if 'A' ≤ c ∧ c ≤ 'Z' then Char.ofNat (c.toNat + 32) else c

/-- Models the lowercasing applied to a candidate binary name before
matching (ASCII case folding; the four canonical names are pure ASCII). -/
def to_lowercase (s : Str) : Str := s.map ascii_lower

/-- The closed set of installable binaries (`enum BinaryName`). -/
inductive BinaryName
  | Mvr
  | Sui
  | Walrus
  | WalrusSites
  deriving DecidableEq, Repr

/-- Models `BinaryName::to_str` (also its `Display` impl, which prints the
same four strings). -/
def BinaryName.to_str : BinaryName → Str
  | .Mvr => "mvr".data
  | .Sui => "sui".data
  | .Walrus => "walrus".data
  | .WalrusSites => "site-builder".data

/-- Models `BinaryName::repo_url`; the catch-all arm of the Rust match
(covering `Sui`) maps to the sui repository. -/
def BinaryName.repo_url : BinaryName → Str
  | .Mvr => "https://github.com/MystenLabs/mvr".data
  | .Walrus => "https://github.com/MystenLabs/walrus".data
  | .WalrusSites => "https://github.com/MystenLabs/walrus-sites".data
  | _ => "https://github.com/MystenLabs/sui".data

/-- Models the binary-name parser used by `parse_component_with_version`
(`BinaryName::from_str(s, true)`, clap's `ValueEnum` lookup with
`ignore_case = true`, which compares ASCII-case-insensitively against the
value names; the hand-written `FromStr` impl lowercases and matches the
same four strings). The branch order follows the `FromStr` match. -/
def BinaryName.from_str (s : Str) : Except Str BinaryName :=
  if to_lowercase s = "sui".data then .ok .Sui
  else if to_lowercase s = "mvr".data then .ok .Mvr
  else if to_lowercase s = "walrus".data then .ok .Walrus
  else if to_lowercase s = "site-builder".data then .ok .WalrusSites
  else .error ("Unknown binary: ".data ++ s)

/-- Models `struct CommandMetadata`. -/
structure CommandMetadata where
  name : BinaryName
  network : Str
  version : Option Str
  deriving DecidableEq, Repr

/-- The errors the parsing functions can produce. The first two carry the
data interpolated into the `anyhow!`/`bail!` messages (see
`ParseError.render`); `Panic` models a Rust index-out-of-bounds panic,
which the code would hit only if `splitn(2, '-')` returned fewer than two
parts under the network-prefix guard (proved unreachable below). -/
inductive ParseError
  | InvalidBinaryName (token : Str)
  | InvalidSpecifierFormat
  | Panic
  deriving DecidableEq, Repr

/-- The exact user-facing message of each error, as formatted in the
source. -/
def ParseError.render : ParseError → Str
  | .InvalidBinaryName token =>
      "Invalid binary name: ".data ++ token ++
        ". Use `suiup list` to find available binaries to install.".data
  | .InvalidSpecifierFormat =>
      "Invalid format. Use \x27binary\x27 or \x27binary version\x27".data
  | .Panic => "index out of bounds".data

/-- Models `parse_version_spec`. -/
def parse_version_spec (spec : Option Str) : Except ParseError (Str × Option Str) :=
  match spec with
  | none => .ok ("testnet".data, none)
  | some spec =>
    if starts_with spec "testnet-".data
        || starts_with spec "devnet-".data
        || starts_with spec "mainnet-".data then
      match splitn2 '-' spec with
      | p0 :: p1 :: _ => .ok (p0, some p1)
      | _ => .error .Panic
    else if spec = "testnet".data ∨ spec = "devnet".data ∨ spec = "mainnet".data then
      .ok (spec, none)
    else
      .ok ("testnet".data, some spec)

/-- Models the `split_char` selection at the top of
`parse_component_with_version`. -/
def split_char (s : Str) : Str :=
  if contains s "@".data then "@".data
  else if contains s "==".data then "==".data
  else if contains s "=".data then "=".data
  else " ".data

/-- Models `parse_component_with_version`: split on the selected
delimiter, then match on the number of parts exactly as the Rust
`match parts.len()` does (one part: bare binary name; two parts: binary
name plus version spec; anything else: format error). -/
def parse_component_with_version (s : Str) : Except ParseError CommandMetadata :=
  match split s (split_char s) with
  | [p0] =>
    match BinaryName.from_str p0 with
    | .error _ => .error (.InvalidBinaryName p0)
    | .ok component =>
      match parse_version_spec none with
      | .error e => .error e
      | .ok (network, version) => .ok ⟨component, network, version⟩
  | [p0, p1] =>
    match BinaryName.from_str p0 with
    | .error _ => .error (.InvalidBinaryName p0)
    | .ok component =>
      match parse_version_spec (some p1) with
      | .error e => .error e
      | .ok (network, version) => .ok ⟨component, network, version⟩
  | _ => .error .InvalidSpecifierFormat

/-- Models `enum Commands`, the closed set of subcommands. The per-variant
argument structs live in modules outside this file and carry no data the
router inspects, so they are elided. -/
inductive Commands
  | Default
  | Install
  | Remove
  | List
  | Self_
  | Show
  | Switch
  | Update
  | Which
  | Cleanup
  deriving DecidableEq, Repr

/-- Models `struct Command`: the selected subcommand plus the two global
options. -/
structure Command where
  command : Commands
  github_token : Option Str
  disable_update_warnings : Bool

/-- The observable dispatch made by `Command::exec`: which handler's
`exec` is called, and, for the handlers that take it, the
`github_token` argument passed. -/
inductive Dispatch
  | Default
  | Install (token : Option Str)
  | Remove (token : Option Str)
  | List (token : Option Str)
  | Self_
  | Show
  | Switch
  | Update (token : Option Str)
  | Which
  | Cleanup (token : Option Str)
  deriving DecidableEq, Repr

/-- The observable effects of one `Command::exec` call: how many times the
`check_for_updates` side effect ran, and the dispatch made. -/
structure ExecTrace where
  update_checks : Nat
  dispatch : Dispatch
  deriving DecidableEq, Repr

/-- Models `matches!(self.command, Commands::Self_(_))`. -/
def Commands.is_self_ : Commands → Bool
  | .Self_ => true
  | _ => false

/-- Models `Command::exec`: `check_for_updates()` is called once when the
subcommand is not `Self_` and `disable_update_warnings` is false (the
guard `!matches!(self.command, Commands::Self_(_)) &&
!self.disable_update_warnings`); then the match dispatches, passing
`&self.github_token` to exactly the install, remove, list, update and
cleanup handlers. -/
def Command.exec (c : Command) : ExecTrace where
  update_checks := if !c.command.is_self_ && !c.disable_update_warnings then 1 else 0
  dispatch :=
    match c.command with
    | .Default => .Default
    | .Install => .Install c.github_token
    | .Remove => .Remove c.github_token
    | .List => .List c.github_token
    | .Self_ => .Self_
    | .Show => .Show
    | .Switch => .Switch
    | .Update => .Update c.github_token
    | .Which => .Which
    | .Cleanup => .Cleanup c.github_token

/-- The `github_token` argument a dispatch hands to its handler, when the
handler takes one. -/
def Dispatch.token_arg : Dispatch → Option (Option Str)
  | .Install t => some t
  | .Remove t => some t
  | .List t => some t
  | .Update t => some t
  | .Cleanup t => some t
  | _ => none

/-- Joins parts with a separator (the left inverse of splitting); used to
state that splitting on every occurrence of the delimiter loses nothing. -/
def joinSep (sep : Str) : List Str → Str
  | [] => []
  | [p] => p
  | p :: ps => p ++ sep ++ joinSep sep ps

/-- Restatement of the version-spec algorithm following the claim text:
the three literal network prefixes give the prefix minus its trailing
dash as the network and the remainder after the first dash as the
version; a bare network name gives that network with no version; any
other string is a bare version for testnet. Compared against
`parse_version_spec` below. -/
def parse_version_spec_claim : Option Str → Str × Option Str
  | none => ("testnet".data, none)
  | some s =>
    if starts_with s "testnet-".data then ("testnet".data, some (s.drop 8))
    else if starts_with s "devnet-".data then ("devnet".data, some (s.drop 7))
    else if starts_with s "mainnet-".data then ("mainnet".data, some (s.drop 8))
    else if s = "testnet".data ∨ s = "devnet".data ∨ s = "mainnet".data then (s, none)
    else ("testnet".data, some s)

/-! ### Lemmas about the string primitives -/

theorem starts_with_iff (pat s : Str) : starts_with s pat = true ↔ ∃ t, s = pat ++ t := by
  induction pat generalizing s with
  | nil => simp [starts_with]
  | cons p ps ih =>
    cases s with
    | nil => simp [starts_with]
    | cons c rest => simp [starts_with, ih, List.cons_eq_cons, exists_and_left]

theorem starts_with_append (pat t : Str) : starts_with (pat ++ t) pat = true := by
  rw [starts_with_iff]
  exact ⟨t, rfl⟩

theorem starts_with_append_of {x pat : Str} (t : Str)
    (h : starts_with x pat = true) : starts_with (x ++ t) pat = true := by
  rw [starts_with_iff] at h ⊢
  obtain ⟨u, rfl⟩ := h
  exact ⟨u ++ t, by simp⟩

theorem contains_of_starts_with {s pat : Str} (h : starts_with s pat = true) :
    contains s pat = true := by
  cases s <;> simp [contains, h]

theorem contains_append_right {u pat : Str} (a : Str) (h : contains u pat = true) :
    contains (a ++ u) pat = true := by
  induction a with
  | nil => simpa
  | cons c a ih => simp [contains, ih]

theorem splitOnNE_ne_nil (q : Char) (qs : Str) (s : Str) : splitOnNE q qs s ≠ [] := by
  induction s using splitOnNE.induct q qs with
  | case1 => simp [splitOnNE]
  | case2 c rest h ih =>
    simp only [splitOnNE, if_pos h]
    simp
  | case3 c rest h heq ih =>
    simp only [splitOnNE, if_neg h]
    simp [heq]
  | case4 c rest h p ps heq ih =>
    simp only [splitOnNE, if_neg h]
    simp [heq]

theorem splitOnNE_head (q : Char) (qs : Str) :
    ∀ s p ps, splitOnNE q qs s = p :: ps → ∃ t, s = p ++ t := by
  intro s
  induction s using splitOnNE.induct q qs with
  | case1 =>
    intro p ps h
    simp only [splitOnNE] at h
    cases h
    exact ⟨[], rfl⟩
  | case2 c rest h ih =>
    intro p ps hps
    simp only [splitOnNE, if_pos h] at hps
    cases hps
    exact ⟨c :: rest, rfl⟩
  | case3 c rest h heq ih =>
    exact absurd heq (splitOnNE_ne_nil q qs rest)
  | case4 c rest h p0 ps0 heq ih =>
    intro p ps hps
    simp only [splitOnNE, if_neg h, heq] at hps
    cases hps
    obtain ⟨t, ht⟩ := ih p0 ps0 heq
    exact ⟨t, by rw [ht]; rfl⟩

theorem joinSep_cons_cons (sep : Str) (c : Char) (p : Str) (ps : List Str) :
    joinSep sep ((c :: p) :: ps) = c :: joinSep sep (p :: ps) := by
  cases ps <;> simp [joinSep]

theorem joinSep_splitOnNE (q : Char) (qs : Str) :
    ∀ s, joinSep (q :: qs) (splitOnNE q qs s) = s := by
  intro s
  induction s using splitOnNE.induct q qs with
  | case1 => simp [splitOnNE, joinSep]
  | case2 c rest h ih =>
    obtain ⟨p, ps, hps⟩ : ∃ p ps, splitOnNE q qs (List.drop qs.length rest) = p :: ps := by
      cases hh : splitOnNE q qs (List.drop qs.length rest) with
      | nil => exact absurd hh (splitOnNE_ne_nil q qs _)
      | cons a b => exact ⟨a, b, rfl⟩
    have h2 : c :: rest = (q :: qs) ++ List.drop qs.length rest := by
      rw [starts_with_iff] at h
      obtain ⟨t, ht⟩ := h
      have hd : List.drop qs.length rest = t := by
        have := congrArg (List.drop (q :: qs).length) ht
        simpa [List.drop_left] using this
      rw [hd, ht]
    simp only [splitOnNE, if_pos h, hps]
    have h3 : joinSep (q :: qs) ([] :: p :: ps) = (q :: qs) ++ joinSep (q :: qs) (p :: ps) := by
      simp [joinSep]
    rw [h3, ← hps, ih, ← h2]
  | case3 c rest h heq ih =>
    exact absurd heq (splitOnNE_ne_nil q qs rest)
  | case4 c rest h p0 ps0 heq ih =>
    simp only [splitOnNE, if_neg h, heq]
    rw [joinSep_cons_cons, ← heq, ih]

theorem splitOnNE_not_contains (q : Char) (qs : Str) :
    ∀ s, ∀ p ∈ splitOnNE q qs s, contains p (q :: qs) = false := by
  intro s
  induction s using splitOnNE.induct q qs with
  | case1 =>
    intro p hp
    simp only [splitOnNE, List.mem_singleton] at hp
    subst hp
    simp [contains, starts_with]
  | case2 c rest h ih =>
    intro p hp
    simp only [splitOnNE, if_pos h] at hp
    rcases List.mem_cons.mp hp with rfl | hmem
    · simp [contains, starts_with]
    · exact ih p hmem
  | case3 c rest h heq ih =>
    exact absurd heq (splitOnNE_ne_nil q qs rest)
  | case4 c rest h p0 ps0 heq ih =>
    intro p hp
    simp only [splitOnNE, if_neg h, heq] at hp
    rcases List.mem_cons.mp hp with rfl | hmem
    · have hc : contains p0 (q :: qs) = false := by
        apply ih
        rw [heq]
        exact List.mem_cons_self p0 ps0
      have hsw : starts_with (c :: p0) (q :: qs) = false := by
        rcases Bool.eq_false_or_eq_true (starts_with (c :: p0) (q :: qs)) with hx | hx
        · exfalso
          obtain ⟨t, ht⟩ := splitOnNE_head q qs rest p0 ps0 heq
          have : starts_with (c :: rest) (q :: qs) = true := by
            have h5 := starts_with_append_of t hx
            rw [ht]
            simpa using h5
          exact h this
        · exact hx
      simp [contains, hsw, hc]
    · apply ih
      rw [heq]
      exact List.mem_cons_of_mem p0 hmem

theorem splitn2_first (sep : Char) :
    ∀ xs t, sep ∉ xs → splitn2 sep (xs ++ sep :: t) = [xs, t] := by
  intro xs
  induction xs with
  | nil =>
    intro t h
    simp [splitn2]
  | cons c xs ih =>
    intro t h
    have hc : ¬c = sep := by
      intro hcs
      exact h (by simp [hcs])
    have hx : sep ∉ xs := fun hm => h (List.mem_cons_of_mem c hm)
    simp only [List.cons_append, splitn2, if_neg hc, List.append_eq, ih t hx]

theorem split_ne_nil (s : Str) {pat : Str} (h : pat ≠ []) : split s pat ≠ [] := by
  cases pat with
  | nil => exact absurd rfl h
  | cons q qs => exact splitOnNE_ne_nil q qs s

theorem joinSep_split (s : Str) {pat : Str} (h : pat ≠ []) :
    joinSep pat (split s pat) = s := by
  cases pat with
  | nil => exact absurd rfl h
  | cons q qs => exact joinSep_splitOnNE q qs s

theorem split_not_contains (s : Str) {pat : Str} (h : pat ≠ []) :
    ∀ p ∈ split s pat, contains p pat = false := by
  cases pat with
  | nil => exact absurd rfl h
  | cons q qs => exact splitOnNE_not_contains q qs s

theorem split_char_ne_nil (s : Str) : split_char s ≠ [] := by
  unfold split_char
  split_ifs <;> simp

/-! ### Lemmas about the parsing functions -/

theorem parse_version_spec_eq (spec : Option Str) :
    parse_version_spec spec = .ok (parse_version_spec_claim spec) := by
  match spec with
  | none => rfl
  | some s =>
    by_cases h1 : starts_with s "testnet-".data = true
    · obtain ⟨t, rfl⟩ := (starts_with_iff _ _).mp h1
      have hs : splitn2 '-' ("testnet-".data ++ t) = ["testnet".data, t] := by
        have he : "testnet-".data ++ t = "testnet".data ++ '-' :: t := rfl
        rw [he]
        exact splitn2_first '-' "testnet".data t (by decide)
      have hd : List.drop 8 ("testnet-".data ++ t) = t := by
        exact List.drop_left "testnet-".data t
      simp only [parse_version_spec, parse_version_spec_claim]
      rw [h1, hs, hd]
      simp
    · by_cases h2 : starts_with s "devnet-".data = true
      · obtain ⟨t, rfl⟩ := (starts_with_iff _ _).mp h2
        have hs : splitn2 '-' ("devnet-".data ++ t) = ["devnet".data, t] := by
          have he : "devnet-".data ++ t = "devnet".data ++ '-' :: t := rfl
          rw [he]
          exact splitn2_first '-' "devnet".data t (by decide)
        have hd : List.drop 7 ("devnet-".data ++ t) = t := by
          exact List.drop_left "devnet-".data t
        rw [Bool.not_eq_true] at h1
        simp only [parse_version_spec, parse_version_spec_claim]
        rw [h1, h2, hs, hd]
        simp
      · by_cases h3 : starts_with s "mainnet-".data = true
        · obtain ⟨t, rfl⟩ := (starts_with_iff _ _).mp h3
          have hs : splitn2 '-' ("mainnet-".data ++ t) = ["mainnet".data, t] := by
            have he : "mainnet-".data ++ t = "mainnet".data ++ '-' :: t := rfl
            rw [he]
            exact splitn2_first '-' "mainnet".data t (by decide)
          have hd : List.drop 8 ("mainnet-".data ++ t) = t := by
            exact List.drop_left "mainnet-".data t
          rw [Bool.not_eq_true] at h1 h2
          simp only [parse_version_spec, parse_version_spec_claim]
          rw [h1, h2, h3, hs, hd]
          simp
        · rw [Bool.not_eq_true] at h1 h2 h3
          simp only [parse_version_spec, parse_version_spec_claim]
          rw [h1, h2, h3]
          by_cases h4 : s = "testnet".data ∨ s = "devnet".data ∨ s = "mainnet".data
          · simp [h4]
          · simp [h4]

theorem network_of_parse_version_spec (spec : Option Str) (n : Str) (v : Option Str)
    (h : parse_version_spec spec = .ok (n, v)) :
    n = "testnet".data ∨ n = "devnet".data ∨ n = "mainnet".data := by
  rw [parse_version_spec_eq] at h
  have h2 : parse_version_spec_claim spec = (n, v) := by
    injection h
  rcases spec with _ | s
  · simp only [parse_version_spec_claim] at h2
    cases h2
    left
    rfl
  · simp only [parse_version_spec_claim] at h2
    split_ifs at h2 with hc1 hc2 hc3 hc4
    · cases h2; left; rfl
    · cases h2; right; left; rfl
    · cases h2; right; right; rfl
    · cases h2
      rcases hc4 with hc | hc | hc
      · left; exact hc
      · right; left; exact hc
      · right; right; exact hc
    · cases h2; left; rfl

/-! ### The claims -/

/-- C1: on every invocation of `Command::exec`, the `check_for_updates`
side effect runs exactly once iff the selected subcommand is not the
self-update subcommand and `disable_update_warnings` is false, and it
never runs when the flag is true or the subcommand is self-update. -/
theorem C1_update_check_invariant (c : Command) :
    (c.exec.update_checks = 1 ↔
      (c.command ≠ Commands.Self_ ∧ c.disable_update_warnings = false)) ∧
    ((c.disable_update_warnings = true ∨ c.command = Commands.Self_) →
      c.exec.update_checks = 0) := by
  obtain ⟨cmd, tok, dw⟩ := c
  cases cmd <;> cases dw <;>
    simp [Command.exec, Commands.is_self_]

/-- C1 witness: for the cleanup subcommand with warnings enabled the check
runs once; for self-update it never runs. -/
theorem C1_update_check_invariant_witness :
    (Command.mk Commands.Cleanup none false).exec.update_checks = 1 ∧
    (Command.mk Commands.Self_ none false).exec.update_checks = 0 := by
  constructor
  · exact (C1_update_check_invariant (Command.mk Commands.Cleanup none false)).1.mpr
      ⟨by decide, rfl⟩
  · exact (C1_update_check_invariant (Command.mk Commands.Self_ none false)).2
      (Or.inr rfl)

/-- C2: `parse_component_with_version` selects exactly one delimiter by
strict priority on the whole input (`@`, else `==`, else `=`, else a
single space) and splits on every occurrence of it: no resulting part
contains the delimiter, and rejoining the parts with the delimiter
restores the input. -/
theorem C2_delimiter_selection (s : Str) :
    (contains s "@".data = true → split_char s = "@".data) ∧
    (contains s "@".data = false → contains s "==".data = true →
      split_char s = "==".data) ∧
    (contains s "@".data = false → contains s "==".data = false →
      contains s "=".data = true → split_char s = "=".data) ∧
    (contains s "@".data = false → contains s "==".data = false →
      contains s "=".data = false → split_char s = " ".data) ∧
    joinSep (split_char s) (split s (split_char s)) = s ∧
    (∀ p ∈ split s (split_char s), contains p (split_char s) = false) := by
  refine ⟨?_, ?_, ?_, ?_, ?_, ?_⟩
  · intro h
    simp [split_char, h]
  · intro h1 h2
    simp [split_char, h1, h2]
  · intro h1 h2 h3
    simp [split_char, h1, h2, h3]
  · intro h1 h2 h3
    simp [split_char, h1, h2, h3]
  · exact joinSep_split s (split_char_ne_nil s)
  · exact split_not_contains s (split_char_ne_nil s)

/-- C2 witness: `a==b` selects `==` (no `@` present) and `a=b` selects
`=` (no `@` or `==` present). -/
theorem C2_delimiter_selection_witness :
    split_char "a==b".data = "==".data ∧ split_char "a=b".data = "=".data := by
  constructor
  · exact (C2_delimiter_selection "a==b".data).2.1 (by decide) (by decide)
  · exact (C2_delimiter_selection "a=b".data).2.2.1 (by decide) (by decide) (by decide)

/-- C3: `parse_version_spec` returns `Ok` on every input, with the value
described by the claim: `none` gives testnet and no version; a spec with
literal prefix `testnet-`/`devnet-`/`mainnet-` gives the prefix minus the
dash as network and the remainder after the first dash as version; a spec
equal to a bare network name gives that network and no version; anything
else gives testnet with the whole spec as version. -/
theorem C3_parse_version_spec_total (spec : Option Str) :
    parse_version_spec spec = .ok (parse_version_spec_claim spec) :=
  parse_version_spec_eq spec

/-- C8: the router passes the global `github_token` to exactly the
install, remove, list, update and cleanup handlers, and to no other
handler. -/
theorem C8_token_routing (c : Command) :
    ((c.command = Commands.Install ∨ c.command = Commands.Remove ∨
      c.command = Commands.List ∨ c.command = Commands.Update ∨
      c.command = Commands.Cleanup) →
        c.exec.dispatch.token_arg = some c.github_token) ∧
    ((c.command = Commands.Default ∨ c.command = Commands.Self_ ∨
      c.command = Commands.Show ∨ c.command = Commands.Switch ∨
      c.command = Commands.Which) →
        c.exec.dispatch.token_arg = none) := by
  obtain ⟨cmd, tok, dw⟩ := c
  cases cmd <;> simp [Command.exec, Dispatch.token_arg]

/-- C8 witness: the install handler receives the token; the show handler
receives none. -/
theorem C8_token_routing_witness :
    (Command.mk Commands.Install (some "t".data) false).exec.dispatch.token_arg =
      some (some "t".data) ∧
    (Command.mk Commands.Show (some "t".data) false).exec.dispatch.token_arg = none := by
  constructor
  · exact (C8_token_routing (Command.mk Commands.Install (some "t".data) false)).1
      (Or.inl rfl)
  · exact (C8_token_routing (Command.mk Commands.Show (some "t".data) false)).2
      (Or.inr (Or.inr (Or.inl rfl)))

/-- C4: when the delimiter split yields one part, that part is the whole
input and it is resolved as a binary name with network testnet and no
version; when it yields two parts, part 0 is the binary name and part 1
goes through `parse_version_spec`; concretely `sui@testnet-1.39.3`
resolves to Sui on testnet at version 1.39.3. -/
theorem C4_split_arity_dispatch :
    (∀ s p0, split s (split_char s) = [p0] →
      p0 = s ∧ ∀ b, BinaryName.from_str p0 = .ok b →
        parse_component_with_version s = .ok ⟨b, "testnet".data, none⟩) ∧
    (∀ s p0 p1, split s (split_char s) = [p0, p1] →
      ∀ b, BinaryName.from_str p0 = .ok b →
      ∀ n v, parse_version_spec (some p1) = .ok (n, v) →
        parse_component_with_version s = .ok ⟨b, n, v⟩) ∧
    parse_component_with_version "sui@testnet-1.39.3".data =
      .ok ⟨.Sui, "testnet".data, some "1.39.3".data⟩ := by
  refine ⟨?_, ?_, ?_⟩
  · intro s p0 h
    constructor
    · have hj := joinSep_split s (split_char_ne_nil s)
      rw [h] at hj
      simpa [joinSep] using hj
    · intro b hb
      simp only [parse_component_with_version, h, hb]
      rfl
  · intro s p0 p1 h b hb n v hnv
    simp only [parse_component_with_version, h, hb, hnv]
  · have hc : split_char "sui@testnet-1.39.3".data = "@".data := by decide
    have hsp : split "sui@testnet-1.39.3".data (split_char "sui@testnet-1.39.3".data) =
        ["sui".data, "testnet-1.39.3".data] := by
      rw [hc]
      simp [split, splitOnNE, starts_with]
    simp only [parse_component_with_version, hsp]
    rfl

/-- C4 witness: the bare name `mvr` resolves with the testnet default, and
`walrus==mainnet` resolves through the two-part path. -/
theorem C4_split_arity_dispatch_witness :
    parse_component_with_version "mvr".data = .ok ⟨.Mvr, "testnet".data, none⟩ ∧
    parse_component_with_version "walrus==mainnet".data =
      .ok ⟨.Walrus, "mainnet".data, none⟩ := by
  constructor
  · have hc : split_char "mvr".data = " ".data := by decide
    have h : split "mvr".data (split_char "mvr".data) = ["mvr".data] := by
      rw [hc]
      simp [split, splitOnNE, starts_with]
    exact (C4_split_arity_dispatch.1 "mvr".data "mvr".data h).2 .Mvr rfl
  · have hc : split_char "walrus==mainnet".data = "==".data := by decide
    have h : split "walrus==mainnet".data (split_char "walrus==mainnet".data) =
        ["walrus".data, "mainnet".data] := by
      rw [hc]
      simp [split, splitOnNE, starts_with]
    exact C4_split_arity_dispatch.2.1 "walrus==mainnet".data "walrus".data "mainnet".data h
      .Walrus rfl "mainnet".data none rfl

/-- C5: a delimiter split with a part count other than one or two makes
`parse_component_with_version` fail with the format error, whose message
is exactly the source's; in particular `sui@a@b` fails this way. -/
theorem C5_format_error :
    (∀ s : Str, (split s (split_char s)).length ≠ 1 →
      (split s (split_char s)).length ≠ 2 →
      parse_component_with_version s = .error .InvalidSpecifierFormat) ∧
    ParseError.render .InvalidSpecifierFormat =
      "Invalid format. Use \x27binary\x27 or \x27binary version\x27".data ∧
    parse_component_with_version "sui@a@b".data = .error .InvalidSpecifierFormat := by
  refine ⟨?_, rfl, ?_⟩
  · intro s h1 h2
    rcases hp : split s (split_char s) with _ | ⟨p0, _ | ⟨p1, rest⟩⟩
    · simp only [parse_component_with_version, hp]
    · rw [hp] at h1
      simp at h1
    · rcases rest with _ | ⟨p2, rest⟩
      · rw [hp] at h2
        simp at h2
      · simp only [parse_component_with_version, hp]
  · have hc : split_char "sui@a@b".data = "@".data := by decide
    have hsp : split "sui@a@b".data (split_char "sui@a@b".data) =
        ["sui".data, "a".data, "b".data] := by
      rw [hc]
      simp [split, splitOnNE, starts_with]
    simp only [parse_component_with_version, hsp]

/-- C5 witness: `sui=1=2` splits on `=` into three parts and fails with
the format error. -/
theorem C5_format_error_witness :
    parse_component_with_version "sui=1=2".data = .error .InvalidSpecifierFormat := by
  have hc : split_char "sui=1=2".data = "=".data := by decide
  have hsp : split "sui=1=2".data (split_char "sui=1=2".data) =
      ["sui".data, "1".data, "2".data] := by
    rw [hc]
    simp [split, splitOnNE, starts_with]
  apply C5_format_error.1 "sui=1=2".data
  · rw [hsp]
    simp
  · rw [hsp]
    simp

/-- C6: when the one-part or two-part binary-name token fails to resolve,
`parse_component_with_version` fails with the invalid-binary-name error;
its rendered message names the offending token and mentions the list
command; in particular `unknown@testnet` fails this way. -/
theorem C6_invalid_binary_name :
    (∀ s p0 ps, split s (split_char s) = p0 :: ps → ps.length ≤ 1 →
      (∃ e, BinaryName.from_str p0 = .error e) →
      parse_component_with_version s = .error (.InvalidBinaryName p0)) ∧
    (∀ p0, contains (ParseError.render (.InvalidBinaryName p0)) p0 = true ∧
      contains (ParseError.render (.InvalidBinaryName p0)) "list".data = true) ∧
    parse_component_with_version "unknown@testnet".data =
      .error (.InvalidBinaryName "unknown".data) := by
  refine ⟨?_, ?_, ?_⟩
  · intro s p0 ps h hlen he
    obtain ⟨e, he⟩ := he
    rcases ps with _ | ⟨p1, ps⟩
    · simp only [parse_component_with_version, h, he]
    · rcases ps with _ | ⟨p2, ps⟩
      · simp only [parse_component_with_version, h, he]
      · simp at hlen
  · intro p0
    constructor
    · simp only [ParseError.render, List.append_assoc]
      exact contains_append_right _ (contains_of_starts_with (starts_with_append p0 _))
    · simp only [ParseError.render, List.append_assoc]
      apply contains_append_right
      apply contains_append_right
      decide
  · have hc : split_char "unknown@testnet".data = "@".data := by decide
    have hsp : split "unknown@testnet".data (split_char "unknown@testnet".data) =
        ["unknown".data, "testnet".data] := by
      rw [hc]
      simp [split, splitOnNE, starts_with]
    simp only [parse_component_with_version, hsp]
    rfl

/-- C6 witness: the one-part input `nope` is not a binary name and fails
with the invalid-binary-name error naming it. -/
theorem C6_invalid_binary_name_witness :
    parse_component_with_version "nope".data = .error (.InvalidBinaryName "nope".data) := by
  have hc : split_char "nope".data = " ".data := by decide
  have hsp : split "nope".data (split_char "nope".data) = ["nope".data] := by
    rw [hc]
    simp [split, splitOnNE, starts_with]
  exact C6_invalid_binary_name.1 "nope".data "nope".data [] hsp (by decide)
    ⟨"Unknown binary: nope".data, rfl⟩

/-- C7: parsing the canonical display string of any `BinaryName` variant
returns the variant; the round trip also holds for any case variation
(any string whose ASCII lowercasing equals the canonical string),
including `SuI`; and every string that is not a case variation of one of
the four canonical strings is rejected. -/
theorem C7_name_round_trip :
    (∀ x : BinaryName, BinaryName.from_str x.to_str = .ok x) ∧
    (∀ (x : BinaryName) (s : Str), to_lowercase s = x.to_str →
      BinaryName.from_str s = .ok x) ∧
    BinaryName.from_str "SuI".data = .ok .Sui ∧
    (∀ s : Str, (∀ x : BinaryName, to_lowercase s ≠ x.to_str) →
      BinaryName.from_str s = .error ("Unknown binary: ".data ++ s)) := by
  refine ⟨?_, ?_, rfl, ?_⟩
  · intro x
    cases x <;> rfl
  · intro x s h
    cases x <;> simp only [BinaryName.to_str] at h <;> simp [BinaryName.from_str, h]
  · intro s h
    have hS := h BinaryName.Sui
    have hM := h BinaryName.Mvr
    have hW := h BinaryName.Walrus
    have hB := h BinaryName.WalrusSites
    simp only [BinaryName.to_str] at hS hM hW hB
    simp [BinaryName.from_str, hS, hM, hW, hB]

/-- C7 witness: the all-caps case variation `WALRUS` parses to Walrus and
the non-name `xyz` is rejected. -/
theorem C7_name_round_trip_witness :
    BinaryName.from_str "WALRUS".data = .ok .Walrus ∧
    BinaryName.from_str "xyz".data = .error ("Unknown binary: ".data ++ "xyz".data) := by
  constructor
  · exact C7_name_round_trip.2.1 .Walrus "WALRUS".data (by decide)
  · exact C7_name_round_trip.2.2.2 "xyz".data (by intro x; cases x <;> decide)

/-- C9: every network a successful parse can output is one of the three
strings testnet, devnet, mainnet — both for `parse_version_spec` and for
the network field of `parse_component_with_version`. -/
theorem C9_network_always_known :
    (∀ (spec : Option Str) (n : Str) (v : Option Str),
      parse_version_spec spec = .ok (n, v) →
      n = "testnet".data ∨ n = "devnet".data ∨ n = "mainnet".data) ∧
    (∀ (s : Str) (m : CommandMetadata),
      parse_component_with_version s = .ok m →
      m.network = "testnet".data ∨ m.network = "devnet".data ∨
        m.network = "mainnet".data) := by
  refine ⟨network_of_parse_version_spec, ?_⟩
  intro s m h
  rcases hp : split s (split_char s) with _ | ⟨p0, _ | ⟨p1, _ | ⟨p2, rest⟩⟩⟩
  · simp [parse_component_with_version, hp] at h
  · simp only [parse_component_with_version, hp] at h
    rcases hb : BinaryName.from_str p0 with e | b <;> simp only [hb] at h
    · simp at h
    · simp only [show parse_version_spec none =
        Except.ok ("testnet".data, (none : Option Str)) from rfl] at h
      have hm := Except.ok.inj h
      have he : m.network = "testnet".data := (congrArg CommandMetadata.network hm).symm
      exact Or.inl he
  · simp only [parse_component_with_version, hp] at h
    rcases hb : BinaryName.from_str p0 with e | b <;> simp only [hb] at h
    · simp at h
    · obtain ⟨n, v, hnv⟩ : ∃ n v, parse_version_spec (some p1) = .ok (n, v) := by
        rw [parse_version_spec_eq]
        exact ⟨_, _, rfl⟩
      simp only [hnv] at h
      have hm := Except.ok.inj h
      have he : m.network = n := (congrArg CommandMetadata.network hm).symm
      rw [he]
      exact network_of_parse_version_spec (some p1) n v hnv
  · simp [parse_component_with_version, hp] at h

/-- C9 witness: the concrete parse of `devnet-1.0` yields a network in
the closed set. -/
theorem C9_network_always_known_witness :
    "devnet".data = "testnet".data ∨ "devnet".data = "devnet".data ∨
      "devnet".data = "mainnet".data :=
  C9_network_always_known.1 (some "devnet-1.0".data) "devnet".data (some "1.0".data) rfl

/-- C10: splitting always yields at least one part, so the format error
can only arise from three or more parts; the empty string yields one
empty part and fails with the invalid-binary-name error, not the format
error. -/
theorem C10_at_least_one_part :
    (∀ s : Str, 1 ≤ (split s (split_char s)).length) ∧
    (∀ s : Str, parse_component_with_version s = .error .InvalidSpecifierFormat →
      3 ≤ (split s (split_char s)).length) ∧
    split "".data (split_char "".data) = ["".data] ∧
    parse_component_with_version "".data = .error (.InvalidBinaryName "".data) := by
  refine ⟨?_, ?_, ?_, ?_⟩
  · intro s
    rcases hp : split s (split_char s) with _ | ⟨p0, ps⟩
    · exact absurd hp (split_ne_nil s (split_char_ne_nil s))
    · simp
  · intro s h
    rcases hp : split s (split_char s) with _ | ⟨p0, _ | ⟨p1, _ | ⟨p2, rest⟩⟩⟩
    · exact absurd hp (split_ne_nil s (split_char_ne_nil s))
    · simp only [parse_component_with_version, hp] at h
      rcases hb : BinaryName.from_str p0 with e | b <;> simp only [hb] at h
      · simp at h
      · simp only [show parse_version_spec none =
          Except.ok ("testnet".data, (none : Option Str)) from rfl] at h
        simp at h
    · simp only [parse_component_with_version, hp] at h
      rcases hb : BinaryName.from_str p0 with e | b <;> simp only [hb] at h
      · simp at h
      · obtain ⟨n, v, hnv⟩ : ∃ n v, parse_version_spec (some p1) = .ok (n, v) := by
          rw [parse_version_spec_eq]
          exact ⟨_, _, rfl⟩
        simp only [hnv] at h
        simp at h
    · simp
  · have hc : split_char "".data = " ".data := by decide
    rw [hc]
    simp [split, splitOnNE]
  · have hc : split_char "".data = " ".data := by decide
    have hsp : split "".data (split_char "".data) = ["".data] := by
      rw [hc]
      simp [split, splitOnNE]
    simp only [parse_component_with_version, hsp]
    rfl

/-- C10 witness: the format error observed on `sui@a@b` indeed comes with
a three-part split. -/
theorem C10_at_least_one_part_witness :
    3 ≤ (split "sui@a@b".data (split_char "sui@a@b".data)).length := by
  apply C10_at_least_one_part.2.1 "sui@a@b".data
  have hc : split_char "sui@a@b".data = "@".data := by decide
  have hsp : split "sui@a@b".data (split_char "sui@a@b".data) =
      ["sui".data, "a".data, "b".data] := by
    rw [hc]
    simp [split, splitOnNE, starts_with]
  simp only [parse_component_with_version, hsp]

end Suiup
